import Mathlib

/-!
# Verification of the GROE combination model

A shallow embedding of `src/darts/models/groe_combination_model.py`
(`GROECombinationModel`): weight derivation from per-model cross-validation
losses, configuration update, and the weighted combination of predictions.

Modelling conventions:
* Numeric scalars are rationals (`ℚ`); the unbounded sentinel `np.inf`
  is an explicit constructor of the `Crit` type.
* A time series is a list of rational values, one per timestamp, in
  timestamp order; elementwise addition aligns positions (the spec's
  compatibility contract makes all combined series share timestamps).
* Keyword-argument dictionaries are association lists from strings to
  integers; lookup finds the first binding, matching a dict with unique keys.
* The evaluator (`generalized_rolling_origin_evaluation`) and the base
  `CombinationModel` are outside the source tree; they are modelled from the
  spec where their behaviour matters (see `fit` and `EvalContractOk`).
-/

/-- A time series: values in timestamp order. -/
abbrev Series := List ℚ

/-- A keyword-argument mapping, as an association list (a Python dict). -/
abbrev KW := List (String × ℤ)

/-- A criterion value returned by the evaluator: either a finite scalar loss
or the unbounded sentinel (`np.inf`). -/
inductive Crit where
  | fin (q : ℚ)
  | inf
deriving DecidableEq, Repr

/-- Python `list.index(a)`: index of the first occurrence of `a`
(returns the length when absent; the source only calls it on members). -/
def pyIndex (l : List Crit) (a : Crit) : ℕ :=
  match l with
  | [] => 0
  | x :: xs => if x = a then 0 else pyIndex xs a + 1

/-- `np.zeros(n)` followed by `w[i] = 1`: the one-hot vector of length `n`. -/
def oneHot (n i : ℕ) : List ℚ :=
  (List.range n).map fun j => if j = i then 1 else 0

/-- Reciprocal of a criterion value, as in `1 / np.array(self.criterion)`.
The `inf` case never arises where this is used: `fit` only takes reciprocals
after ruling out the sentinel. -/
def recip : Crit → ℚ
  | Crit.fin q => 1 / q
  | Crit.inf => 0

/-- Outcome of a call to `fit`: normal return, or the `ValueError` raised by
`raise_log` when a criterion entry is the unbounded sentinel. -/
inductive FitOutcome where
  | success
  | evalImpossible
deriving DecidableEq, Repr

/-- The mutable state of a `GROECombinationModel` instance, over an abstract
type `M` of constituent forecasting models.  `models`, `train_ts` and the
per-model `predictions` are owned by the base `CombinationModel` (not under
`src/`); they are modelled from the spec as plain fields of the same object.
The fixed `metrics` function is folded into the evaluator argument of `fit`. -/
structure GROEState (M : Type) where
  models : List M
  n_evaluations : ℤ
  groe_kwargs : KW
  criterion : Option (List Crit)
  weights : Option (List ℚ)
  train_ts : Option Series
deriving Repr

/-- `GROECombinationModel.update_groe_params`: if the supplied kwargs contain
`n_evaluations`, pop it into the evaluation-count field; store the (remaining)
kwargs wholesale as the new auxiliary options. -/
def update_groe_params {M : Type} (st : GROEState M) (kwargs : KW) : GROEState M :=
  match kwargs.lookup "n_evaluations" with
  | some v =>
      { st with
        n_evaluations := v
        groe_kwargs := kwargs.filter fun p => !(p.1 == "n_evaluations") }
  | none => { st with groe_kwargs := kwargs }

/-- The criterion vector computed by the evaluation loop of `fit`: one
evaluator call per model, in list order. -/
def fitCriterion {M : Type} (e : Series → M → ℤ → KW → Crit) (st : GROEState M)
    (ts : Series) : List Crit :=
  st.models.map fun m => e ts m st.n_evaluations st.groe_kwargs

/-- `GROECombinationModel.fit`.  The base-class fit (`super().fit`, not under
`src/`) is modelled from the spec: it records the training series and fits the
constituent models (the latter leaves this state unchanged).  `e` stands for
the external `groe` evaluator applied to the instance's fixed metric; it is
invoked once per model, in list order, with the training series, the model,
the evaluation count and the auxiliary options.  The criterion field is
assigned before the sentinel check, so it is updated even on the error path;
the `ValueError` path leaves the weights field untouched. -/
def fit {M : Type} (e : Series → M → ℤ → KW → Crit) (st : GROEState M)
    (ts : Series) : GROEState M × FitOutcome :=
  let crit := fitCriterion e st ts
  let st1 : GROEState M := { st with train_ts := some ts, criterion := some crit }
  if Crit.inf ∈ crit then
    (st1, FitOutcome.evalImpossible)
  else if Crit.fin 0 ∈ crit then
    ({ st1 with weights := some (oneHot crit.length (pyIndex crit (Crit.fin 0))) },
     FitOutcome.success)
  else
    let score := crit.map recip
    ({ st1 with weights := some (score.map fun s => s / score.sum) },
     FitOutcome.success)

/-- `ts * weight`: scalar multiplication of a series. -/
def seriesScale (ts : Series) (w : ℚ) : Series := ts.map fun x => x * w

/-- Elementwise addition of two series (timestamp-aligned by position). -/
def seriesAdd (a b : Series) : Series := a.zipWith (fun x y => x + y) b

/-- Python `sum` over series: starts from the integer `0`, whose addition
with the first series yields that series unchanged. -/
def pySum : List Series → Series
  | [] => []
  | x :: rest => rest.foldl seriesAdd x

/-- `GROECombinationModel.combination_function`:
`sum(map(lambda ts, weight: ts * weight, predictions, weights))`.
A two-iterable `map` pairs elements up to the shorter argument. -/
def combination_function (predictions : List Series) (weights : List ℚ) : Series :=
  pySum ((predictions.zip weights).map fun p => seriesScale p.1 p.2)

/-- Modelled from the spec: the evaluator contract.  The external evaluator
(`generalized_rolling_origin_evaluation`, not under `src/`) returns either
a non-negative scalar loss (the metric maps to non-negative scalars and the
evaluator aggregates them) or the unbounded sentinel. -/
def EvalContractOk (crit : List Crit) : Prop :=
  ∀ q : ℚ, Crit.fin q ∈ crit → 0 ≤ q

/-! ## Basic lemmas about the auxiliary definitions -/

theorem length_oneHot (n i : ℕ) : (oneHot n i).length = n := by
  simp [oneHot]

theorem oneHot_getElem? {n j : ℕ} (i : ℕ) (hj : j < n) :
    (oneHot n i)[j]? = some (if j = i then (1 : ℚ) else 0) := by
  rw [oneHot, List.getElem?_map, List.getElem?_range hj]
  rfl

theorem oneHot_nonneg {n i : ℕ} {x : ℚ} (hx : x ∈ oneHot n i) : 0 ≤ x := by
  rcases List.mem_map.1 hx with ⟨j, _, rfl⟩
  by_cases h : j = i <;> simp [h]

theorem oneHot_sum (n i : ℕ) : (oneHot n i).sum = if i < n then (1 : ℚ) else 0 := by
  induction n with
  | zero => simp [oneHot]
  | succ n ih =>
    rw [oneHot, List.range_succ, List.map_append, List.sum_append]
    rw [oneHot] at ih
    rw [ih]
    by_cases h : i < n
    · have hne : n ≠ i := by omega
      have h' : i < n + 1 := by omega
      simp [hne, h, h']
    · by_cases h2 : n = i
      · subst h2
        simp [h]
      · have h' : ¬ i < n + 1 := by omega
        simp [h, h2, h']

theorem pyIndex_lt_length {l : List Crit} {a : Crit} (h : a ∈ l) :
    pyIndex l a < l.length := by
  induction l with
  | nil => cases h
  | cons x xs ih =>
    rw [pyIndex]
    by_cases hx : x = a
    · simp [hx]
    · have hmem : a ∈ xs := by
        rcases List.mem_cons.1 h with h1 | h1
        · exact absurd h1.symm hx
        · exact h1
      simp only [hx, if_false, List.length_cons]
      exact Nat.succ_lt_succ (ih hmem)

theorem pyIndex_getElem? {l : List Crit} {a : Crit} (h : a ∈ l) :
    l[pyIndex l a]? = some a := by
  induction l with
  | nil => cases h
  | cons x xs ih =>
    rw [pyIndex]
    by_cases hx : x = a
    · simp [hx]
    · have hmem : a ∈ xs := by
        rcases List.mem_cons.1 h with h1 | h1
        · exact absurd h1.symm hx
        · exact h1
      simp only [hx, if_false]
      simpa using ih hmem

theorem pyIndex_first {l : List Crit} {a : Crit} {k : ℕ} (hk : k < pyIndex l a) :
    l[k]? ≠ some a := by
  induction l generalizing k with
  | nil => simp [pyIndex] at hk
  | cons x xs ih =>
    rw [pyIndex] at hk
    by_cases hx : x = a
    · simp [hx] at hk
    · rw [if_neg hx] at hk
      cases k with
      | zero => simpa using fun h => hx h
      | succ k =>
        simpa using ih (Nat.lt_of_succ_lt_succ hk)

theorem sum_pos_of_pos {l : List ℚ} (hne : l ≠ []) (h : ∀ x ∈ l, 0 < x) :
    0 < l.sum := by
  cases l with
  | nil => exact absurd rfl hne
  | cons x xs =>
    have hx := h x (List.mem_cons_self x xs)
    have hxs : 0 ≤ xs.sum :=
      List.sum_nonneg fun y hy => le_of_lt (h y (List.mem_cons_of_mem x hy))
    rw [List.sum_cons]
    linarith

theorem sum_map_div (l : List ℚ) (S : ℚ) :
    (l.map fun s => s / S).sum = l.sum / S := by
  simpa [div_eq_mul_inv] using List.sum_map_mul_right l id S⁻¹

/-- In the list of criteria, after ruling out the sentinel and exact zeros,
the evaluator contract forces every finite entry to be strictly positive. -/
theorem crit_pos {crit : List Crit} (hC : EvalContractOk crit)
    (h0 : Crit.fin 0 ∉ crit) {q : ℚ} (hq : Crit.fin q ∈ crit) : 0 < q := by
  rcases lt_or_eq_of_le (hC q hq) with h | h
  · exact h
  · exact absurd (h ▸ hq) h0

/-- Every reciprocal score is strictly positive in the normalization branch. -/
theorem recip_mem_pos {crit : List Crit} (hC : EvalContractOk crit)
    (hinf : Crit.inf ∉ crit) (h0 : Crit.fin 0 ∉ crit)
    {x : ℚ} (hx : x ∈ crit.map recip) : 0 < x := by
  rcases List.mem_map.1 hx with ⟨c, hc, rfl⟩
  cases c with
  | fin q =>
    have hq := crit_pos hC h0 hc
    rw [recip]
    positivity
  | inf => exact absurd hc hinf

/-! ## Branch lemmas for `fit` -/

theorem fit_eq_of_inf {M : Type} (e : Series → M → ℤ → KW → Crit)
    (st : GROEState M) (ts : Series)
    (h : Crit.inf ∈ fitCriterion e st ts) :
    fit e st ts
      = ({ st with train_ts := some ts, criterion := some (fitCriterion e st ts) },
         FitOutcome.evalImpossible) := by
  simp [fit, h]

theorem fit_eq_of_zero {M : Type} (e : Series → M → ℤ → KW → Crit)
    (st : GROEState M) (ts : Series)
    (hinf : Crit.inf ∉ fitCriterion e st ts)
    (h0 : Crit.fin 0 ∈ fitCriterion e st ts) :
    fit e st ts
      = ({ st with
             train_ts := some ts,
             criterion := some (fitCriterion e st ts),
             weights := some (oneHot (fitCriterion e st ts).length
               (pyIndex (fitCriterion e st ts) (Crit.fin 0))) },
         FitOutcome.success) := by
  simp [fit, hinf, h0]

theorem fit_eq_of_recip {M : Type} (e : Series → M → ℤ → KW → Crit)
    (st : GROEState M) (ts : Series)
    (hinf : Crit.inf ∉ fitCriterion e st ts)
    (h0 : Crit.fin 0 ∉ fitCriterion e st ts) :
    fit e st ts
      = ({ st with
             train_ts := some ts,
             criterion := some (fitCriterion e st ts),
             weights := some (((fitCriterion e st ts).map recip).map
               fun s => s / ((fitCriterion e st ts).map recip).sum) },
         FitOutcome.success) := by
  simp [fit, hinf, h0]

/-! ## Lemmas about keyword-argument dictionaries -/

theorem lookup_filterKey_of_ne {l : KW} {s k : String} (hk : k ≠ s) :
    (l.filter fun p => !(p.1 == s)).lookup k = l.lookup k := by
  induction l with
  | nil => rfl
  | cons x xs ih =>
    obtain ⟨xk, xv⟩ := x
    rw [List.filter_cons]
    by_cases hx : xk = s
    · have hc : (!((xk, xv).1 == s)) = false := by simp [hx]
      have h2 : (k == xk) = false := beq_eq_false_iff_ne.2 (by rw [hx]; exact hk)
      rw [hc, if_neg (by simp), List.lookup_cons, h2]
      exact ih
    · have hc : (!((xk, xv).1 == s)) = true := by simp [hx]
      rw [hc, if_pos rfl, List.lookup_cons, List.lookup_cons]
      cases hkk : k == xk
      · exact ih
      · rfl

theorem lookup_filterKey_self (l : KW) (s : String) :
    (l.filter fun p => !(p.1 == s)).lookup s = none := by
  induction l with
  | nil => rfl
  | cons x xs ih =>
    obtain ⟨xk, xv⟩ := x
    rw [List.filter_cons]
    by_cases hx : xk = s
    · have hc : (!((xk, xv).1 == s)) = false := by simp [hx]
      rw [hc, if_neg (by simp)]
      exact ih
    · have hc : (!((xk, xv).1 == s)) = true := by simp [hx]
      have h2 : (s == xk) = false := beq_eq_false_iff_ne.2 (Ne.symm hx)
      rw [hc, if_pos rfl, List.lookup_cons, h2]
      exact ih

/-! ## The claims -/

/-- C7: `update_groe_params` replaces the auxiliary evaluator options wholesale
with the newly supplied mapping (no merging with prior options); if the supplied
mapping contains an `n_evaluations` entry, that value becomes the stored
evaluation count and the entry is removed from the stored auxiliary mapping;
otherwise the previously stored evaluation count is unchanged. -/
theorem update_groe_params_replaces_options {M : Type} (st st' : GROEState M)
    (kwargs : KW) :
    ((∀ v, kwargs.lookup "n_evaluations" = some v →
        (update_groe_params st kwargs).n_evaluations = v ∧
        (update_groe_params st kwargs).groe_kwargs.lookup "n_evaluations" = none ∧
        ∀ k, k ≠ "n_evaluations" →
          (update_groe_params st kwargs).groe_kwargs.lookup k = kwargs.lookup k) ∧
      (kwargs.lookup "n_evaluations" = none →
        (update_groe_params st kwargs).n_evaluations = st.n_evaluations ∧
        (update_groe_params st kwargs).groe_kwargs = kwargs)) ∧
    (update_groe_params st kwargs).groe_kwargs
      = (update_groe_params st' kwargs).groe_kwargs := by
  refine ⟨⟨?_, ?_⟩, ?_⟩
  · intro v hv
    rw [update_groe_params, hv]
    exact ⟨rfl, lookup_filterKey_self kwargs _, fun k hk => lookup_filterKey_of_ne hk⟩
  · intro hv
    rw [update_groe_params, hv]
    exact ⟨rfl, rfl⟩
  · rw [update_groe_params, update_groe_params]
    cases kwargs.lookup "n_evaluations" <;> rfl

/-- C8: for every state and every supplied options mapping, `update_groe_params`
leaves the already-computed criterion vector and weight vector (and the training
series and model list) unchanged: it mutates only the evaluation count and the
auxiliary options. -/
theorem update_groe_params_frame {M : Type} (st : GROEState M) (kwargs : KW) :
    (update_groe_params st kwargs).criterion = st.criterion ∧
    (update_groe_params st kwargs).weights = st.weights ∧
    (update_groe_params st kwargs).train_ts = st.train_ts ∧
    (update_groe_params st kwargs).models = st.models := by
  rw [update_groe_params]
  cases kwargs.lookup "n_evaluations" <;> exact ⟨rfl, rfl, rfl, rfl⟩

/-- C9: during `fit` the evaluator is invoked exactly once for every model in
the list, in list order — the stored criterion vector is the full in-order list
of evaluator results even when an earlier entry is the unbounded sentinel — and
the evaluation-impossible failure is decided only from the completed vector. -/
theorem fit_evaluates_every_model_before_failing {M : Type}
    (e : Series → M → ℤ → KW → Crit) (st : GROEState M) (ts : Series) :
    (fit e st ts).1.criterion
        = some (st.models.map fun m => e ts m st.n_evaluations st.groe_kwargs) ∧
    ((fit e st ts).2 = FitOutcome.evalImpossible ↔
      Crit.inf ∈ st.models.map fun m => e ts m st.n_evaluations st.groe_kwargs) := by
  by_cases hinf : Crit.inf ∈ fitCriterion e st ts
  · rw [fit_eq_of_inf e st ts hinf]
    exact ⟨rfl, iff_of_true rfl hinf⟩
  · have h2 : (fit e st ts).2 = FitOutcome.success ∧
        (fit e st ts).1.criterion = some (fitCriterion e st ts) := by
      by_cases h0 : Crit.fin 0 ∈ fitCriterion e st ts
      · rw [fit_eq_of_zero e st ts hinf h0]
        exact ⟨rfl, rfl⟩
      · rw [fit_eq_of_recip e st ts hinf h0]
        exact ⟨rfl, rfl⟩
    refine ⟨h2.2, ?_⟩
    rw [h2.1]
    exact iff_of_false (by simp) hinf

/-- C10: when `fit` fails with the evaluation-impossible condition, the stored
criterion vector has already been replaced by the newly computed per-model
losses, unbounded sentinel entries included; it is not rolled back. -/
theorem fit_error_path_updates_criterion {M : Type}
    (e : Series → M → ℤ → KW → Crit) (st : GROEState M) (ts : Series)
    (hinf : Crit.inf ∈ st.models.map fun m => e ts m st.n_evaluations st.groe_kwargs) :
    (fit e st ts).2 = FitOutcome.evalImpossible ∧
    (fit e st ts).1.criterion
        = some (st.models.map fun m => e ts m st.n_evaluations st.groe_kwargs) ∧
    Crit.inf ∈ ((fit e st ts).1.criterion).getD [] := by
  have h : Crit.inf ∈ fitCriterion e st ts := hinf
  rw [fit_eq_of_inf e st ts h]
  exact ⟨rfl, rfl, hinf⟩

/-- C1 (amended): if any criterion entry computed during `fit` is the unbounded
sentinel, `fit` fails with the evaluation-impossible condition and computes no
new weight vector; however the stored weights field is left exactly as it was,
so a weight vector from a prior successful fit remains stored as the current
weights (it is not invalidated). -/
theorem fit_inf_fails_and_preserves_prior_weights {M : Type}
    (e : Series → M → ℤ → KW → Crit) (st : GROEState M) (ts : Series)
    (hinf : Crit.inf ∈ fitCriterion e st ts) :
    (fit e st ts).2 = FitOutcome.evalImpossible ∧
    (fit e st ts).1.weights = st.weights := by
  rw [fit_eq_of_inf e st ts hinf]
  exact ⟨rfl, rfl⟩

/-- C2: with no unbounded entry and at least one entry exactly zero, `fit`
succeeds and publishes a one-hot weight vector: the entry at the first index
(in model-list order) whose criterion is exactly zero is 1 and every other
entry is 0, later zero-criterion models included. -/
theorem fit_zero_criterion_one_hot {M : Type}
    (e : Series → M → ℤ → KW → Crit) (st : GROEState M) (ts : Series)
    (hinf : Crit.inf ∉ fitCriterion e st ts)
    (h0 : Crit.fin 0 ∈ fitCriterion e st ts) :
    (fit e st ts).2 = FitOutcome.success ∧
    ((fit e st ts).1.weights).isSome = true ∧
    (((fit e st ts).1.weights).getD []).length = (fitCriterion e st ts).length ∧
    (fitCriterion e st ts)[pyIndex (fitCriterion e st ts) (Crit.fin 0)]?
      = some (Crit.fin 0) ∧
    (∀ k, k < pyIndex (fitCriterion e st ts) (Crit.fin 0) →
      (fitCriterion e st ts)[k]? ≠ some (Crit.fin 0)) ∧
    (((fit e st ts).1.weights).getD
        [])[pyIndex (fitCriterion e st ts) (Crit.fin 0)]? = some 1 ∧
    (∀ j, j < (((fit e st ts).1.weights).getD []).length →
      j ≠ pyIndex (fitCriterion e st ts) (Crit.fin 0) →
      (((fit e st ts).1.weights).getD [])[j]? = some 0) := by
  rw [fit_eq_of_zero e st ts hinf h0]
  set crit := fitCriterion e st ts with hcrit
  set i := pyIndex crit (Crit.fin 0) with hi
  have hilt : i < crit.length := pyIndex_lt_length h0
  refine ⟨rfl, rfl, length_oneHot _ _, pyIndex_getElem? h0,
    fun k hk => pyIndex_first hk, ?_, ?_⟩
  · show (oneHot crit.length i)[i]? = some 1
    rw [oneHot_getElem? i hilt]
    simp
  · intro j hj hji
    have hj' : j < crit.length := by
      simpa [length_oneHot] using hj
    show (oneHot crit.length i)[j]? = some 0
    rw [oneHot_getElem? i hj']
    simp [hji]

/-- C3: with all criterion entries finite and nonzero, `fit` succeeds and the
weight at each index is the reciprocal of that criterion divided by the sum of
all the reciprocals; consequently for any two indices `i`, `j` the ratio of
weights is the inverse ratio of the criteria, `w i / w j = c j / c i`.
The evaluator contract (losses are non-negative) makes every entry strictly
positive here. -/
theorem fit_weights_are_normalized_reciprocals {M : Type}
    (e : Series → M → ℤ → KW → Crit) (st : GROEState M) (ts : Series)
    (hC : EvalContractOk (fitCriterion e st ts))
    (hinf : Crit.inf ∉ fitCriterion e st ts)
    (h0 : Crit.fin 0 ∉ fitCriterion e st ts) :
    (fit e st ts).2 = FitOutcome.success ∧
    ((fit e st ts).1.weights).isSome = true ∧
    (∀ (i : ℕ) (q : ℚ), (fitCriterion e st ts)[i]? = some (Crit.fin q) →
      (((fit e st ts).1.weights).getD [])[i]?
        = some ((1 / q) / ((fitCriterion e st ts).map recip).sum)) ∧
    (∀ (i j : ℕ) (qi qj : ℚ), (fitCriterion e st ts)[i]? = some (Crit.fin qi) →
      (fitCriterion e st ts)[j]? = some (Crit.fin qj) →
      (((fit e st ts).1.weights).getD []).getD i 0
          / (((fit e st ts).1.weights).getD []).getD j 0
        = qj / qi) := by
  rw [fit_eq_of_recip e st ts hinf h0]
  set crit := fitCriterion e st ts with hcrit
  set S := (crit.map recip).sum with hS
  have hpt : ∀ (i : ℕ) (q : ℚ), crit[i]? = some (Crit.fin q) →
      ((crit.map recip).map fun s => s / S)[i]? = some ((1 / q) / S) := by
    intro i q hq
    rw [List.getElem?_map, List.getElem?_map, hq]
    simp [recip]
  refine ⟨rfl, rfl, hpt, ?_⟩
  intro i j qi qj hqi hqj
  have hqi0 : 0 < qi := crit_pos hC h0 (List.getElem?_mem hqi)
  have hqj0 : 0 < qj := crit_pos hC h0 (List.getElem?_mem hqj)
  show ((crit.map recip).map fun s => s / S).getD i 0
      / ((crit.map recip).map fun s => s / S).getD j 0 = qj / qi
  rw [List.getD_eq_getElem?_getD, List.getD_eq_getElem?_getD, hpt i qi hqi,
    hpt j qj hqj]
  simp only [Option.getD_some]
  have h1 : qi ≠ 0 := ne_of_gt hqi0
  have h2 : qj ≠ 0 := ne_of_gt hqj0
  have hcritne : crit ≠ [] := by
    intro h
    rw [h] at hqi
    simp at hqi
  have hSpos : 0 < S := by
    rw [hS]
    exact sum_pos_of_pos (by simpa [List.map_eq_nil_iff] using hcritne)
      (fun x hx => recip_mem_pos hC hinf h0 hx)
  have h3 : S ≠ 0 := ne_of_gt hSpos
  field_simp
  ring

/-- C4: for a nonempty model list, after any successful fit the weight vector
has the same length as the model list, every entry is non-negative, and the
entries sum to exactly 1, in the one-hot branch and in the
reciprocal-normalization branch alike (under the evaluator contract that
losses are non-negative). -/
theorem fit_weights_sum_to_one {M : Type}
    (e : Series → M → ℤ → KW → Crit) (st : GROEState M) (ts : Series)
    (hne : st.models ≠ [])
    (hC : EvalContractOk (fitCriterion e st ts))
    (hok : (fit e st ts).2 = FitOutcome.success) :
    ((fit e st ts).1.weights).isSome = true ∧
    (((fit e st ts).1.weights).getD []).length = st.models.length ∧
    (∀ x ∈ ((fit e st ts).1.weights).getD [], 0 ≤ x) ∧
    (((fit e st ts).1.weights).getD []).sum = 1 := by
  have hinf : Crit.inf ∉ fitCriterion e st ts := by
    intro h
    rw [fit_eq_of_inf e st ts h] at hok
    exact FitOutcome.noConfusion hok
  have hlen : (fitCriterion e st ts).length = st.models.length :=
    List.length_map st.models _
  by_cases h0 : Crit.fin 0 ∈ fitCriterion e st ts
  · rw [fit_eq_of_zero e st ts hinf h0]
    have hilt := pyIndex_lt_length h0
    refine ⟨rfl, ?_, ?_, ?_⟩
    · show (oneHot (fitCriterion e st ts).length _).length = st.models.length
      rw [length_oneHot, hlen]
    · intro x hx
      exact oneHot_nonneg hx
    · show (oneHot (fitCriterion e st ts).length _).sum = 1
      rw [oneHot_sum, if_pos hilt]
  · rw [fit_eq_of_recip e st ts hinf h0]
    set crit := fitCriterion e st ts with hcrit
    set score := crit.map recip with hsc
    have hcritne : crit ≠ [] := by
      rw [hcrit, fitCriterion]
      simpa [List.map_eq_nil_iff] using hne
    have hscne : score ≠ [] := by
      rw [hsc]
      simpa [List.map_eq_nil_iff] using hcritne
    have hspos : ∀ x ∈ score, 0 < x := fun x hx => recip_mem_pos hC hinf h0 hx
    have hsum : 0 < score.sum := sum_pos_of_pos hscne hspos
    refine ⟨rfl, ?_, ?_, ?_⟩
    · show (score.map fun s => s / score.sum).length = st.models.length
      rw [List.length_map, hsc, List.length_map, hlen]
    · intro x hx
      rcases List.mem_map.1 hx with ⟨s, hs, rfl⟩
      exact le_of_lt (div_pos (hspos s hs) hsum)
    · show (score.map fun s => s / score.sum).sum = 1
      rw [sum_map_div, div_self (ne_of_gt hsum)]

/-- C5 (amended): for two models `i`, `j` with finite strictly positive
criteria `qi < qj`, and provided no model's criterion is exactly zero (so the
reciprocal-normalization branch applies rather than the one-hot branch), a
successful fit gives model `i` strictly more weight than model `j`. -/
theorem fit_weight_monotone_in_loss {M : Type}
    (e : Series → M → ℤ → KW → Crit) (st : GROEState M) (ts : Series)
    (hC : EvalContractOk (fitCriterion e st ts))
    (hinf : Crit.inf ∉ fitCriterion e st ts)
    (h0 : Crit.fin 0 ∉ fitCriterion e st ts)
    (i j : ℕ) (qi qj : ℚ)
    (hqi : (fitCriterion e st ts)[i]? = some (Crit.fin qi))
    (hqj : (fitCriterion e st ts)[j]? = some (Crit.fin qj))
    (hpos : 0 < qi) (hlt : qi < qj) :
    (fit e st ts).2 = FitOutcome.success ∧
    (((fit e st ts).1.weights).getD []).getD j 0
      < (((fit e st ts).1.weights).getD []).getD i 0 := by
  rw [fit_eq_of_recip e st ts hinf h0]
  set crit := fitCriterion e st ts with hcrit
  set S := (crit.map recip).sum with hS
  have hqj0 : 0 < qj := lt_trans hpos hlt
  have hcritne : crit ≠ [] := by
    intro h
    rw [h] at hqi
    simp at hqi
  have hspos : ∀ x ∈ crit.map recip, 0 < x :=
    fun x hx => recip_mem_pos hC hinf h0 hx
  have hSpos : 0 < S := by
    rw [hS]
    exact sum_pos_of_pos (by simpa [List.map_eq_nil_iff] using hcritne) hspos
  have hpt : ∀ (k : ℕ) (q : ℚ), crit[k]? = some (Crit.fin q) →
      ((crit.map recip).map fun s => s / S)[k]? = some ((1 / q) / S) := by
    intro k q hq
    rw [List.getElem?_map, List.getElem?_map, hq]
    simp [recip]
  refine ⟨rfl, ?_⟩
  show ((crit.map recip).map fun s => s / S).getD j 0
      < ((crit.map recip).map fun s => s / S).getD i 0
  rw [List.getD_eq_getElem?_getD, List.getD_eq_getElem?_getD, hpt i qi hqi,
    hpt j qj hqj]
  simp only [Option.getD_some]
  have hrec : (1 : ℚ) / qj < 1 / qi := (one_div_lt_one_div hqj0 hpos).2 hlt
  gcongr

/-! ## Lemmas about series arithmetic -/

theorem length_seriesAdd (a b : Series) :
    (seriesAdd a b).length = min a.length b.length := by
  simp [seriesAdd]

theorem getD_seriesAdd (a b : Series) (t : ℕ) (ha : t < a.length)
    (hb : t < b.length) :
    (seriesAdd a b).getD t 0 = a.getD t 0 + b.getD t 0 := by
  simp only [seriesAdd, List.getD_eq_getElem?_getD, List.getElem?_zipWith,
    List.getElem?_eq_getElem ha, List.getElem?_eq_getElem hb]
  rfl

theorem length_seriesScale (p : Series) (w : ℚ) :
    (seriesScale p w).length = p.length := by
  simp [seriesScale]

theorem getD_seriesScale (p : Series) (w : ℚ) (t : ℕ) (ht : t < p.length) :
    (seriesScale p w).getD t 0 = p.getD t 0 * w := by
  simp only [seriesScale, List.getD_eq_getElem?_getD, List.getElem?_map,
    List.getElem?_eq_getElem ht]
  rfl

theorem foldl_seriesAdd_getD (L : ℕ) (l : List Series) (acc : Series) (t : ℕ)
    (ht : t < L) (hacc : acc.length = L) (hl : ∀ p ∈ l, p.length = L) :
    (l.foldl seriesAdd acc).getD t 0
      = acc.getD t 0 + (l.map fun p => p.getD t 0).sum := by
  induction l generalizing acc with
  | nil => simp
  | cons x xs ih =>
    have hx : x.length = L := hl x (List.mem_cons_self x xs)
    have hlen : (seriesAdd acc x).length = L := by
      rw [length_seriesAdd, hacc, hx, min_self]
    rw [List.foldl_cons,
      ih (seriesAdd acc x) hlen (fun p hp => hl p (List.mem_cons_of_mem x hp)),
      getD_seriesAdd acc x t (by omega) (by omega), List.map_cons, List.sum_cons]
    ring

/-- C6: the combination function returns the elementwise weighted sum of the
stored per-model predictions with the stored weight vector: at every timestamp
`t` (position, under the base ensemble's shared-timestamp contract) the output
value is the sum over models of `weight[i] * prediction_i[t]`. -/
theorem combination_function_weighted_sum (preds : List Series) (ws : List ℚ)
    (L : ℕ) (hne : preds ≠ []) (hlen : preds.length = ws.length)
    (hL : ∀ p ∈ preds, p.length = L) (t : ℕ) (ht : t < L) :
    (combination_function preds ws).getD t 0
      = ((preds.zip ws).map fun p => p.2 * p.1.getD t 0).sum := by
  cases preds with
  | nil => exact absurd rfl hne
  | cons p0 ptl =>
    cases ws with
    | nil => simp at hlen
    | cons w0 wtl =>
      rw [combination_function, List.zip_cons_cons, List.map_cons]
      simp only [pySum]
      have hp0 : p0.length = L := hL p0 (List.mem_cons_self _ _)
      have hrest : ∀ q ∈ (ptl.zip wtl).map fun p => seriesScale p.1 p.2,
          q.length = L := by
        intro q hq
        rcases List.mem_map.1 hq with ⟨⟨a, b⟩, hab, rfl⟩
        have ha : a ∈ ptl := (List.of_mem_zip hab).1
        rw [length_seriesScale]
        exact hL a (List.mem_cons_of_mem _ ha)
      have hmaps : (((ptl.zip wtl).map fun p => seriesScale p.1 p.2).map
            fun p => p.getD t 0)
          = (ptl.zip wtl).map fun p => p.2 * p.1.getD t 0 := by
        rw [List.map_map]
        apply List.map_congr_left
        rintro ⟨a, b⟩ hab
        have ha : a ∈ ptl := (List.of_mem_zip hab).1
        have haL : a.length = L := hL a (List.mem_cons_of_mem _ ha)
        simp only [Function.comp_apply]
        rw [getD_seriesScale a b t (by omega)]
        ring
      rw [foldl_seriesAdd_getD L _ _ t ht
          (by rw [length_seriesScale]; exact hp0) hrest,
        getD_seriesScale p0 w0 t (by omega), hmaps, List.map_cons, List.sum_cons]
      ring

/-! ## Concrete counterexamples and witnesses

Rational arithmetic in core is shielded from definitional unfolding; the
concrete evaluations below only need it restored to the usual status. -/

section ConcreteEvaluation

attribute [local semireducible] Rat.add Rat.mul Rat.inv

/-- C1, counterexample: with criterion `[1, unbounded]` and the weight vector
`[1/2, 1/2]` stored by a prior successful fit, `fit` raises the
evaluation-impossible error — but the prior weight vector is still stored as
the current weights, refuting that it "must not be presented as the current
valid weights". -/
theorem fit_inf_prior_weights_still_stored_cex :
    (fit (M := Crit) (fun _ m _ _ => m)
        ⟨[Crit.fin 1, Crit.inf], 6, [], some [Crit.fin 1, Crit.fin 1],
          some [1/2, 1/2], some [5]⟩ [4]).2 = FitOutcome.evalImpossible ∧
    (fit (M := Crit) (fun _ m _ _ => m)
        ⟨[Crit.fin 1, Crit.inf], 6, [], some [Crit.fin 1, Crit.fin 1],
          some [1/2, 1/2], some [5]⟩ [4]).1.weights = some [1/2, 1/2] := by
  decide

/-- Witness for C1 (amended) at a concrete input. -/
theorem fit_inf_fails_and_preserves_prior_weights_witness :
    (fit (M := Crit) (fun _ m _ _ => m)
        ⟨[Crit.inf], 6, [], some [Crit.fin 7], some [1], some [5]⟩ [4]).2
      = FitOutcome.evalImpossible ∧
    (fit (M := Crit) (fun _ m _ _ => m)
        ⟨[Crit.inf], 6, [], some [Crit.fin 7], some [1], some [5]⟩ [4]).1.weights
      = some [1] :=
  fit_inf_fails_and_preserves_prior_weights (fun _ m _ _ => m)
    ⟨[Crit.inf], 6, [], some [Crit.fin 7], some [1], some [5]⟩ [4] (by decide)

/-- Witness for C2 at criterion `[1/2, 0, 0]`: the first zero (index 1) wins. -/
theorem fit_zero_criterion_one_hot_witness :
    (fit (M := Crit) (fun _ m _ _ => m)
        ⟨[Crit.fin (1/2), Crit.fin 0, Crit.fin 0], 6, [], none, none, none⟩
        []).2 = FitOutcome.success ∧
    (fit (M := Crit) (fun _ m _ _ => m)
        ⟨[Crit.fin (1/2), Crit.fin 0, Crit.fin 0], 6, [], none, none, none⟩
        []).1.weights = some [0, 1, 0] ∧
    pyIndex (fitCriterion (M := Crit) (fun _ m _ _ => m)
        ⟨[Crit.fin (1/2), Crit.fin 0, Crit.fin 0], 6, [], none, none, none⟩ [])
      (Crit.fin 0) = 1 :=
  ⟨(fit_zero_criterion_one_hot (fun _ m _ _ => m)
      ⟨[Crit.fin (1/2), Crit.fin 0, Crit.fin 0], 6, [], none, none, none⟩ []
      (by decide) (by decide)).1,
    by decide, by decide⟩

/-- Witness for C3 at criterion `[1, 2]`: weights `[2/3, 1/3]` and
`w 0 / w 1 = c 1 / c 0 = 2 / 1`. -/
theorem fit_weights_are_normalized_reciprocals_witness :
    (fit (M := Crit) (fun _ m _ _ => m)
        ⟨[Crit.fin 1, Crit.fin 2], 6, [], none, none, none⟩ []).2
      = FitOutcome.success ∧
    (fit (M := Crit) (fun _ m _ _ => m)
        ⟨[Crit.fin 1, Crit.fin 2], 6, [], none, none, none⟩ []).1.weights
      = some [2/3, 1/3] ∧
    (((fit (M := Crit) (fun _ m _ _ => m)
        ⟨[Crit.fin 1, Crit.fin 2], 6, [], none, none, none⟩ []).1.weights).getD
          []).getD 0 0
        / (((fit (M := Crit) (fun _ m _ _ => m)
        ⟨[Crit.fin 1, Crit.fin 2], 6, [], none, none, none⟩ []).1.weights).getD
          []).getD 1 0
      = 2 / 1 := by
  have h := fit_weights_are_normalized_reciprocals (M := Crit) (fun _ m _ _ => m)
    ⟨[Crit.fin 1, Crit.fin 2], 6, [], none, none, none⟩ []
    (by
      intro q hq
      simp [fitCriterion] at hq
      rcases hq with rfl | rfl
      · exact zero_le_one
      · exact zero_le_two)
    (by decide) (by decide)
  exact ⟨h.1, by decide, h.2.2.2 0 1 1 2 (by decide) (by decide)⟩

/-- Witness for C4 at criterion `[1, 2]`. -/
theorem fit_weights_sum_to_one_witness :
    ((fit (M := Crit) (fun _ m _ _ => m)
        ⟨[Crit.fin 1, Crit.fin 2], 6, [], none, none, none⟩ []).1.weights).isSome
      = true ∧
    (((fit (M := Crit) (fun _ m _ _ => m)
        ⟨[Crit.fin 1, Crit.fin 2], 6, [], none, none, none⟩
        []).1.weights).getD []).length = 2 ∧
    (((fit (M := Crit) (fun _ m _ _ => m)
        ⟨[Crit.fin 1, Crit.fin 2], 6, [], none, none, none⟩
        []).1.weights).getD []).sum = 1 := by
  have h := fit_weights_sum_to_one (M := Crit) (fun _ m _ _ => m)
    ⟨[Crit.fin 1, Crit.fin 2], 6, [], none, none, none⟩ []
    (by decide)
    (by
      intro q hq
      simp [fitCriterion] at hq
      rcases hq with rfl | rfl
      · exact zero_le_one
      · exact zero_le_two)
    (by decide)
  exact ⟨h.1, h.2.1, h.2.2.2⟩

/-- C5, counterexample: with criterion `[0, 1, 2]` the fit succeeds through the
one-hot branch; models 1 and 2 have finite strictly positive criteria `1 < 2`,
yet both get weight 0, so the weight of model 1 is not strictly greater than
the weight of model 2 — refuting the claim as stated. -/
theorem fit_monotone_claim_cex :
    (fit (M := Crit) (fun _ m _ _ => m)
        ⟨[Crit.fin 0, Crit.fin 1, Crit.fin 2], 6, [], none, none, none⟩ []).2
      = FitOutcome.success ∧
    (fitCriterion (M := Crit) (fun _ m _ _ => m)
        ⟨[Crit.fin 0, Crit.fin 1, Crit.fin 2], 6, [], none, none, none⟩ [])[1]?
      = some (Crit.fin 1) ∧
    (fitCriterion (M := Crit) (fun _ m _ _ => m)
        ⟨[Crit.fin 0, Crit.fin 1, Crit.fin 2], 6, [], none, none, none⟩ [])[2]?
      = some (Crit.fin 2) ∧
    ((0 : ℚ) < 1 ∧ (1 : ℚ) < 2) ∧
    (fit (M := Crit) (fun _ m _ _ => m)
        ⟨[Crit.fin 0, Crit.fin 1, Crit.fin 2], 6, [], none, none, none⟩
        []).1.weights = some [1, 0, 0] ∧
    ¬ ((((fit (M := Crit) (fun _ m _ _ => m)
        ⟨[Crit.fin 0, Crit.fin 1, Crit.fin 2], 6, [], none, none, none⟩
        []).1.weights).getD []).getD 2 0
      < (((fit (M := Crit) (fun _ m _ _ => m)
        ⟨[Crit.fin 0, Crit.fin 1, Crit.fin 2], 6, [], none, none, none⟩
        []).1.weights).getD []).getD 1 0) := by
  decide

/-- Witness for C5 (amended) at criterion `[1, 2]`: `w 1 < w 0`. -/
theorem fit_weight_monotone_in_loss_witness :
    (fit (M := Crit) (fun _ m _ _ => m)
        ⟨[Crit.fin 1, Crit.fin 2], 6, [], none, none, none⟩ []).2
      = FitOutcome.success ∧
    (((fit (M := Crit) (fun _ m _ _ => m)
        ⟨[Crit.fin 1, Crit.fin 2], 6, [], none, none, none⟩
        []).1.weights).getD []).getD 1 0
      < (((fit (M := Crit) (fun _ m _ _ => m)
        ⟨[Crit.fin 1, Crit.fin 2], 6, [], none, none, none⟩
        []).1.weights).getD []).getD 0 0 :=
  fit_weight_monotone_in_loss (fun _ m _ _ => m)
    ⟨[Crit.fin 1, Crit.fin 2], 6, [], none, none, none⟩ []
    (by
      intro q hq
      simp [fitCriterion] at hq
      rcases hq with rfl | rfl
      · exact zero_le_one
      · exact zero_le_two)
    (by decide) (by decide) 0 1 1 2 (by decide) (by decide)
    zero_lt_one one_lt_two

/-- Witness for C6: weights `[1/5, 2/5, 2/5]` on single-point predictions
`[10]`, `[20]`, `[30]` combine to `1/5*10 + 2/5*20 + 2/5*30 = 22`. -/
theorem combination_function_weighted_sum_witness :
    (combination_function [[10], [20], [30]] [1/5, 2/5, 2/5]).getD 0 0
      = ((([[(10 : ℚ)], [20], [30]]).zip [(1 : ℚ)/5, 2/5, 2/5]).map
          fun p => p.2 * p.1.getD 0 0).sum ∧
    (combination_function [[10], [20], [30]] [1/5, 2/5, 2/5]).getD 0 0 = 22 :=
  ⟨combination_function_weighted_sum [[10], [20], [30]] [1/5, 2/5, 2/5] 1
      (by decide) (by decide) (by decide) 0 (by decide),
    by decide⟩

/-- Witness for C7 at a concrete state and kwargs containing `n_evaluations`. -/
theorem update_groe_params_replaces_options_witness :
    (update_groe_params (M := Unit) ⟨[], 6, [("n_jobs", 3)], none, none, none⟩
        [("n_evaluations", 9), ("alpha", 2)]).n_evaluations = 9 ∧
    (update_groe_params (M := Unit) ⟨[], 6, [("n_jobs", 3)], none, none, none⟩
        [("n_evaluations", 9), ("alpha", 2)]).groe_kwargs.lookup "n_evaluations"
      = none ∧
    (update_groe_params (M := Unit) ⟨[], 6, [("n_jobs", 3)], none, none, none⟩
        [("n_evaluations", 9), ("alpha", 2)]).groe_kwargs.lookup "alpha"
      = [(("n_evaluations" : String), (9 : ℤ)), ("alpha", 2)].lookup "alpha" := by
  have h := update_groe_params_replaces_options (M := Unit)
    ⟨[], 6, [("n_jobs", 3)], none, none, none⟩ ⟨[], 6, [], none, none, none⟩
    [("n_evaluations", 9), ("alpha", 2)]
  have h9 := h.1.1 9 (by decide)
  exact ⟨h9.1, h9.2.1, h9.2.2 "alpha" (by decide)⟩

/-- Witness for C10: a failed fit overwrites the prior criterion
`[7, 8]` with the newly computed `[1, unbounded]`. -/
theorem fit_error_path_updates_criterion_witness :
    (fit (M := Crit) (fun _ m _ _ => m)
        ⟨[Crit.fin 1, Crit.inf], 6, [], some [Crit.fin 7, Crit.fin 8],
          some [1/2, 1/2], none⟩ []).2 = FitOutcome.evalImpossible ∧
    (fit (M := Crit) (fun _ m _ _ => m)
        ⟨[Crit.fin 1, Crit.inf], 6, [], some [Crit.fin 7, Crit.fin 8],
          some [1/2, 1/2], none⟩ []).1.criterion
      = some [Crit.fin 1, Crit.inf] ∧
    Crit.inf ∈ ((fit (M := Crit) (fun _ m _ _ => m)
        ⟨[Crit.fin 1, Crit.inf], 6, [], some [Crit.fin 7, Crit.fin 8],
          some [1/2, 1/2], none⟩ []).1.criterion).getD [] := by
  have h := fit_error_path_updates_criterion (M := Crit) (fun _ m _ _ => m)
    ⟨[Crit.fin 1, Crit.inf], 6, [], some [Crit.fin 7, Crit.fin 8],
      some [1/2, 1/2], none⟩ []
    (by decide)
  exact ⟨h.1, h.2.1, h.2.2⟩

end ConcreteEvaluation
